import Mathlib

/-!
Verification of the FedAvg simulation in `src/Mnist/base.py` against its
natural-language specification.

The program orchestrates Federated Averaging rounds: the server broadcasts the
global model weights, every client runs local mini-batch SGD on its own
dataset (`train` / `local_train`), the server averages the returned client
weights (`tff.federated_mean` inside `next_fn`) and copies the aggregate into
a fresh model (`global_update` / `global_model_update`).

Shallow embedding choices:
* a parameter vector (the flattened trainable variables of the model) is a
  `List ℚ`; per-index arithmetic on aligned vectors models per-tensor
  arithmetic, with exact rationals standing for floats;
* a client dataset is a `List β` of opaque batches, iterated in order;
* `tf.nest.map_structure(lambda x, y: x.assign(y), xs, ys)` is `nestAssign`:
  it checks that the two structures agree and then overwrites each slot of
  `xs` with the corresponding value of `ys` (a value copy, not a reference);
* the in-place updates of the local model variables in `train` are made
  explicit with a two-slot store `TrainState` (the broadcast global weights
  and the local model's variables), so that the frame property "the global
  weights are never written" is a statement, not a modelling artifact;
* automatic differentiation is an injected `gradFn : weights → batch →
  (loss, gradient)`; a fallible variant returning `Except` models a gradient
  backend that signals non-finite values.
-/

abbrev ParameterVector : Type := List ℚ

namespace FedAvg

/-- Error taxonomy of the design: configuration, shape, aggregation and
numeric failures. -/
inductive FLError where
  | configurationError : FLError
  | shapeMismatchError : FLError
  | aggregationError : FLError
  | numericError : FLError
deriving DecidableEq, Repr

deriving instance DecidableEq for Except

/-- Element-wise addition of two parameter vectors; a missing entry counts as
zero, so `[]` is the neutral element. On the program's shape-aligned vectors
this is exactly per-index tensor addition. -/
def vadd : List ℚ → List ℚ → List ℚ
  | [], ys => ys
  | x :: xs, [] => x :: xs
  | x :: xs, y :: ys => (x + y) :: vadd xs ys

/-- Scalar multiple of a parameter vector. -/
def smulVec (c : ℚ) (v : List ℚ) : List ℚ := v.map (fun x => c * x)

/-- Sum of a list of parameter vectors. -/
def vecSum (vs : List ParameterVector) : ParameterVector := vs.foldr vadd []

/-- Embeds `tf.nest.map_structure(lambda x, y: x.assign(y), xs, ys)`
(base.py:98 and base.py:124): the structures must agree, and then every slot
of `xs` receives the value held by the corresponding slot of `ys`. -/
def nestAssign (xs ys : List ℚ) : Option (List ℚ) :=
  if xs.length = ys.length then some (List.zipWith (fun _ y => y) xs ys) else none

/-- One `optimizer.apply_gradients` step of plain SGD (base.py:108 with the
`tf.optimizers.SGD` built in base.py:117): per parameter index,
`w[i] - lr * g[i]`, with no momentum, decay or clipping. -/
def sgdStep (lr : ℚ) (w g : ParameterVector) : ParameterVector :=
  List.zipWith (fun wi gi => wi - lr * gi) w g

section

variable {β : Type}

/-- Inner loop of `train` (base.py:102-108): one pass over the dataset's
batches in the order the dataset yields them, taking one gradient and one SGD
step per batch. -/
def epochPass (gradFn : ParameterVector → β → ℚ × ParameterVector) (lr : ℚ)
    (ds : List β) (w : ParameterVector) : ParameterVector :=
  ds.foldl (fun v b => sgdStep lr v (gradFn v b).2) w

/-- Outer loop of `train` (base.py:101): `for epoch in range(epochs)` around
`epochPass`. -/
def trainLoop (gradFn : ParameterVector → β → ℚ × ParameterVector)
    (epochs : ℕ) (lr : ℚ) (ds : List β) (w : ParameterVector) : ParameterVector :=
  match epochs with
  | 0 => w
  | e + 1 => trainLoop gradFn e lr ds (epochPass gradFn lr ds w)

/-- The two tensors `train` can reach: the broadcast global weights it was
handed, and the local model's trainable variables. -/
structure TrainState where
  globalW : ParameterVector
  localW : ParameterVector
deriving DecidableEq, Repr

/-- Embeds `train` (base.py:84-110): assign the global weights into the local
model's variables (base.py:98, a value copy), then run `epochs` passes of
per-batch SGD on the local variables only, and report the final local
variables. `none` models `tf.nest.map_structure` rejecting mismatched
structures. -/
def train (gradFn : ParameterVector → β → ℚ × ParameterVector)
    (epochs : ℕ) (lr : ℚ) (ds : List β) (st : TrainState) : Option TrainState :=
  match nestAssign st.localW st.globalW with
  | none => none
  | some l0 => some { globalW := st.globalW, localW := trainLoop gradFn epochs lr ds l0 }

/-- Embeds `local_train` (base.py:114-118): build a fresh model (variables
`modelInit`) and an SGD optimizer with rate `lr`, run `train` on it with the
broadcast global weights `gw`, and return the resulting local weights. The
source reads `epochs` and `lr` from the module constants EPOCHS and
LEARNING_RATE; they are explicit parameters here. -/
def local_train (modelInit : ParameterVector)
    (gradFn : ParameterVector → β → ℚ × ParameterVector)
    (epochs : ℕ) (lr : ℚ) (gw : ParameterVector) (ds : List β) :
    Option ParameterVector :=
  (train gradFn epochs lr ds { globalW := gw, localW := modelInit }).map TrainState.localW

/-- Batch loop of `train` with a fallible gradient backend: the external
autodiff capability may signal a failure (the design's NumericError for
non-finite loss or gradient), and the loop body (base.py:102-108) has no
handler around it, so the failure propagates at once. -/
def batchesE (gradFnE : ParameterVector → β → Except FLError (ℚ × ParameterVector))
    (lr : ℚ) : List β → ParameterVector → Except FLError ParameterVector
  | [], w => .ok w
  | b :: bs, w =>
    match gradFnE w b with
    | .error e => .error e
    | .ok lg => batchesE gradFnE lr bs (sgdStep lr w lg.2)

/-- Epoch loop of `train` with a fallible gradient backend. -/
def trainLoopE (gradFnE : ParameterVector → β → Except FLError (ℚ × ParameterVector))
    (lr : ℚ) : ℕ → List β → ParameterVector → Except FLError ParameterVector
  | 0, _, w => .ok w
  | e + 1, ds, w =>
    match batchesE gradFnE lr ds w with
    | .error err => .error err
    | .ok w1 => trainLoopE gradFnE lr e ds w1

end

/-- Embeds `tff.federated_mean(local_model_weights)` (base.py:155): the
per-index unweighted arithmetic mean of the client results. The mean of zero
client results is undefined; per the spec's taxonomy this is an
AggregationError. -/
def federated_mean (vs : List ParameterVector) : Except FLError ParameterVector :=
  if vs.isEmpty then .error .aggregationError
  else .ok ((vecSum vs).map (fun x => x / (vs.length : ℚ)))

/-- The Aggregator's `combine`: with `weights` omitted it is the source's
`tff.federated_mean`. Modelled from the spec: the weighted branch, the unused
extension point named in the comment at base.py:154 (the optional `weight`
argument of `tff.federated_mean`), computes the weighted mean and fails with
AggregationError on a length mismatch or a non-positive weight sum. -/
def combine (localResults : List ParameterVector) (weights : Option (List ℚ)) :
    Except FLError ParameterVector :=
  match weights with
  | none => federated_mean localResults
  | some ws =>
    if ws.length ≠ localResults.length then .error .aggregationError
    else if ws.sum ≤ 0 then .error .aggregationError
    else .ok ((vecSum (List.zipWith smulVec ws localResults)).map (fun x => x / ws.sum))

/-- Embeds `global_model_update` (base.py:121-126): assign the aggregated
weights into the (fresh) global model's variables and return those
variables. -/
def global_model_update (modelVars aggregated : ParameterVector) :
    Option ParameterVector :=
  nestAssign modelVars aggregated

/-- Embeds `global_update` (base.py:130-134): build a fresh model (variables
`modelInit`) and run `global_model_update` on it. -/
def global_update (modelInit aggregated : ParameterVector) : Option ParameterVector :=
  global_model_update modelInit aggregated

/-- Sequences a list of optional results: the barrier succeeds only when
every client produced a result. -/
def seqOption {α : Type} : List (Option α) → Option (List α)
  | [] => some []
  | none :: _ => none
  | some a :: rest => (seqOption rest).map (fun l => a :: l)

section

variable {β : Type}

/-- Embeds `next_fn` (base.py:138-159): broadcast the global weights to every
client, map `local_train` over the client datasets, aggregate the local
results with `tff.federated_mean`, and copy the aggregate into the global
model with `global_update`. A structure mismatch in either assignment is a
ShapeMismatchError. -/
def next_fn (modelInit : ParameterVector)
    (gradFn : ParameterVector → β → ℚ × ParameterVector)
    (epochs : ℕ) (lr : ℚ) (gw : ParameterVector) (dss : List (List β)) :
    Except FLError ParameterVector :=
  match seqOption (dss.map (fun d => local_train modelInit gradFn epochs lr gw d)) with
  | none => .error .shapeMismatchError
  | some locals =>
    match federated_mean locals with
    | .error e => .error e
    | .ok agg =>
      match global_update modelInit agg with
      | none => .error .shapeMismatchError
      | some w => .ok w

/-- The Coordinator's state: a round counter and the global weights. -/
structure GlobalModelState where
  round : ℕ
  weights : ParameterVector
deriving DecidableEq, Repr

/-- Modelled from the spec: the Coordinator's `next`. The source's iterative
process threads bare weights and counts rounds in the external driver loop
(base.py:171-175), and the empty-client-set failure lives in the TFF runtime,
not in base.py; the spec packages both into `next`: an empty `clientDatasets`
fails with ConfigurationError before any transition, and a successful round
returns `{round := s.round + 1, weights := aggregated}`. The weights
computation is the source's `next_fn`. -/
def coordinatorNext (modelInit : ParameterVector)
    (gradFn : ParameterVector → β → ℚ × ParameterVector)
    (epochs : ℕ) (lr : ℚ) (s : GlobalModelState) (dss : List (List β)) :
    Except FLError GlobalModelState :=
  if dss.isEmpty then .error .configurationError
  else
    match next_fn modelInit gradFn epochs lr s.weights dss with
    | .error e => .error e
    | .ok w => .ok { round := s.round + 1, weights := w }

/-- The external driver loop (base.py:171-175): run `n` consecutive rounds,
feeding each round's output state into the next. -/
def runRounds (modelInit : ParameterVector)
    (gradFn : ParameterVector → β → ℚ × ParameterVector)
    (epochs : ℕ) (lr : ℚ) : ℕ → GlobalModelState → List (List β) →
    Except FLError GlobalModelState
  | 0, s, _ => .ok s
  | n + 1, s, dss =>
    match coordinatorNext modelInit gradFn epochs lr s dss with
    | .error e => .error e
    | .ok s1 => runRounds modelInit gradFn epochs lr n s1 dss

end

section Lemmas

theorem zipWith_dropFst_eq {xs ys : List ℚ} (h : xs.length = ys.length) :
    List.zipWith (fun _ y => y) xs ys = ys := by
  induction xs generalizing ys with
  | nil => cases ys with
    | nil => rfl
    | cons y ys => simp at h
  | cons x xs ih => cases ys with
    | nil => simp at h
    | cons y ys =>
      simp only [List.zipWith_cons_cons, List.cons.injEq, true_and]
      exact ih (by simpa using h)

theorem nestAssign_of_length {xs ys : List ℚ} (h : xs.length = ys.length) :
    nestAssign xs ys = some ys := by
  unfold nestAssign
  rw [if_pos h, zipWith_dropFst_eq h]

theorem vadd_nil (a : List ℚ) : vadd a [] = a := by
  cases a <;> rfl

theorem vadd_comm (a b : List ℚ) : vadd a b = vadd b a := by
  induction a generalizing b with
  | nil => cases b <;> rfl
  | cons x xs ih => cases b with
    | nil => rfl
    | cons y ys => simp only [vadd, List.cons.injEq]; exact ⟨add_comm x y, ih ys⟩

theorem vadd_assoc (a b c : List ℚ) : vadd (vadd a b) c = vadd a (vadd b c) := by
  induction a generalizing b c with
  | nil => rfl
  | cons x xs ih => cases b with
    | nil => rfl
    | cons y ys => cases c with
      | nil => rfl
      | cons z zs =>
        simp only [vadd, List.cons.injEq]
        exact ⟨add_assoc x y z, ih ys zs⟩

instance : Std.Commutative vadd := ⟨vadd_comm⟩

instance : Std.Associative vadd := ⟨vadd_assoc⟩

theorem vecSum_perm {l₁ l₂ : List ParameterVector} (p : l₁.Perm l₂) :
    vecSum l₁ = vecSum l₂ :=
  p.foldr_eq []

theorem vadd_getD (a b : List ℚ) (i : ℕ) :
    (vadd a b).getD i 0 = a.getD i 0 + b.getD i 0 := by
  induction a generalizing b i with
  | nil => simp [vadd]
  | cons x xs ih => cases b with
    | nil => simp [vadd]
    | cons y ys => cases i with
      | zero => rfl
      | succ j => simpa [vadd] using ih ys j

theorem getD_map_div (l : List ℚ) (c : ℚ) (i : ℕ) :
    (l.map (fun x => x / c)).getD i 0 = l.getD i 0 / c := by
  induction l generalizing i with
  | nil => simp [zero_div]
  | cons x xs ih => cases i with
    | zero => rfl
    | succ j => simpa using ih j

theorem smulVec_one (w : List ℚ) : smulVec 1 w = w := by
  simp [smulVec]

theorem vadd_smulVec_succ (c : ℚ) (w : List ℚ) :
    vadd w (smulVec c w) = smulVec (c + 1) w := by
  induction w with
  | nil => rfl
  | cons x xs ih =>
    simp only [smulVec, List.map_cons, vadd, List.cons.injEq] at ih ⊢
    constructor
    · ring
    · exact ih

theorem vecSum_const {w : ParameterVector} {vs : List ParameterVector}
    (hne : vs ≠ []) (h : ∀ v ∈ vs, v = w) :
    vecSum vs = smulVec (vs.length : ℚ) w := by
  induction vs with
  | nil => exact absurd rfl hne
  | cons v vs ih =>
    have hv : v = w := h v (List.mem_cons_self v vs)
    cases vs with
    | nil =>
      have h1 : vecSum [v] = v := vadd_nil v
      rw [h1, hv]
      simp [smulVec_one]
    | cons v1 vs1 =>
      have h1 : vecSum (v :: v1 :: vs1) = vadd v (vecSum (v1 :: vs1)) := rfl
      have ih1 := ih (by simp) (fun u hu => h u (List.mem_cons_of_mem _ hu))
      rw [h1, ih1]
      simp only [List.length_cons]
      rw [hv, vadd_smulVec_succ]
      congr 1
      push_cast
      ring

theorem federated_mean_const {w : ParameterVector} {vs : List ParameterVector}
    (hne : vs ≠ []) (h : ∀ v ∈ vs, v = w) :
    federated_mean vs = .ok w := by
  unfold federated_mean
  rw [if_neg (by simpa using hne)]
  rw [vecSum_const hne h]
  have hN : (vs.length : ℚ) ≠ 0 := by
    have hn : vs.length ≠ 0 := fun h0 => hne (List.length_eq_zero.mp h0)
    exact_mod_cast hn
  congr 1
  unfold smulVec
  rw [List.map_map]
  have h3 : ((fun x => x / (vs.length : ℚ)) ∘ fun x => (vs.length : ℚ) * x) = id := by
    funext x
    simp [Function.comp, mul_div_assoc]
    field_simp
  rw [h3, List.map_id]

theorem vecSum_getD (vs : List ParameterVector) (i : ℕ) :
    (vecSum vs).getD i 0 = (vs.map (fun v => v.getD i 0)).sum := by
  induction vs with
  | nil => rfl
  | cons v vs ih =>
    have h1 : vecSum (v :: vs) = vadd v (vecSum vs) := rfl
    rw [h1, vadd_getD, ih]
    simp


theorem sgdStep_getD (lr : ℚ) (w g : ParameterVector) (i : ℕ)
    (hw : i < w.length) (hg : i < g.length) :
    (sgdStep lr w g).getD i 0 = w.getD i 0 - lr * g.getD i 0 := by
  induction w generalizing g i with
  | nil => simp at hw
  | cons x xs ih => cases g with
    | nil => simp at hg
    | cons y ys => cases i with
      | zero => rfl
      | succ j =>
        simpa [sgdStep] using ih ys j (by simpa using hw) (by simpa using hg)

theorem zipWith_smulVec_eq_map_zip (ws : List ℚ) (vs : List ParameterVector) :
    List.zipWith smulVec ws vs = (vs.zip ws).map (fun p => smulVec p.2 p.1) := by
  induction ws generalizing vs with
  | nil => cases vs <;> rfl
  | cons c cs ih => cases vs with
    | nil => rfl
    | cons v vt => simpa using ih vt

theorem map_snd_zip_eq {α γ : Type} (vs : List α) (ws : List γ)
    (h : vs.length = ws.length) : (vs.zip ws).map Prod.snd = ws := by
  induction vs generalizing ws with
  | nil => cases ws with
    | nil => rfl
    | cons w wt => simp at h
  | cons v vt ih => cases ws with
    | nil => simp at h
    | cons w wt => simpa using ih wt (by simpa using h)

theorem vadd_length (a b : List ℚ) : (vadd a b).length = max a.length b.length := by
  induction a generalizing b with
  | nil => simp [vadd]
  | cons x xs ih => cases b with
    | nil => simp [vadd]
    | cons y ys =>
      simp only [vadd, List.length_cons, ih ys]
      omega

theorem vecSum_length_aligned {n : ℕ} {vs : List ParameterVector}
    (hne : vs ≠ []) (hlen : ∀ v ∈ vs, v.length = n) : (vecSum vs).length = n := by
  induction vs with
  | nil => exact absurd rfl hne
  | cons v vs ih =>
    have hv : v.length = n := hlen v (List.mem_cons_self v vs)
    cases vs with
    | nil => rw [show vecSum [v] = v from vadd_nil v, hv]
    | cons v1 vs1 =>
      have h1 : vecSum (v :: v1 :: vs1) = vadd v (vecSum (v1 :: vs1)) := rfl
      rw [h1, vadd_length, hv,
        ih (by simp) (fun u hu => hlen u (List.mem_cons_of_mem _ hu))]
      simp

theorem local_train_eq {β : Type} {modelInit gw : ParameterVector}
    (gradFn : ParameterVector → β → ℚ × ParameterVector) (epochs : ℕ) (lr : ℚ)
    (ds : List β) (h : modelInit.length = gw.length) :
    local_train modelInit gradFn epochs lr gw ds =
      some (trainLoop gradFn epochs lr ds gw) := by
  unfold local_train train
  simp only [nestAssign_of_length h]
  rfl

theorem seqOption_map_const {β α : Type} (l : List β) (x : α) :
    seqOption (l.map (fun _ => some x)) = some (l.map (fun _ => x)) := by
  induction l with
  | nil => rfl
  | cons b bt ih =>
    have h1 : seqOption ((b :: bt).map (fun _ => some x)) =
        (seqOption (bt.map (fun _ => some x))).map (fun l => x :: l) := rfl
    rw [h1, ih]
    rfl

theorem coordinatorNext_epochs_zero {β : Type} (modelInit : ParameterVector)
    (gradFn : ParameterVector → β → ℚ × ParameterVector) (lr : ℚ)
    (s : GlobalModelState) (dss : List (List β))
    (h : modelInit.length = s.weights.length) (hne : dss ≠ []) :
    coordinatorNext modelInit gradFn 0 lr s dss = .ok ⟨s.round + 1, s.weights⟩ := by
  have hmap : dss.map (fun d => local_train modelInit gradFn 0 lr s.weights d)
      = dss.map (fun _ => some s.weights) := by
    apply List.map_congr_left
    intro d _
    rw [local_train_eq gradFn 0 lr d h]
    rfl
  have hseq : seqOption (dss.map (fun d => local_train modelInit gradFn 0 lr s.weights d))
      = some (dss.map (fun _ => s.weights)) := by
    rw [hmap, seqOption_map_const]
  have hmean : federated_mean (dss.map (fun _ => s.weights)) = .ok s.weights := by
    apply federated_mean_const
    · simpa using hne
    · intro v hv
      rcases List.mem_map.mp hv with ⟨d, _, hd⟩
      exact hd.symm
  have hupd : global_update modelInit s.weights = some s.weights :=
    nestAssign_of_length h
  unfold coordinatorNext next_fn
  rw [if_neg (by simpa using hne)]
  simp only [hseq, hmean, hupd]

end Lemmas

/-- C10: for every aggregated parameter vector of the model's shape, the
post-aggregation step `global_update` (and the `global_model_update` it wraps)
only copies the aggregated weights into the fresh model's variables and
returns them value-equal, so the round's output weights are exactly the
aggregation result. -/
theorem global_update_returns_aggregate (modelInit w : ParameterVector)
    (h : modelInit.length = w.length) :
    global_update modelInit w = some w ∧ global_model_update modelInit w = some w :=
  ⟨nestAssign_of_length h, nestAssign_of_length h⟩

/-- Witness for C10 at the concrete aggregate `[5, 7]` over a two-parameter
model. -/
theorem global_update_returns_aggregate_witness :
    global_update [0, 0] [5, 7] = some [5, 7] ∧
    global_model_update [0, 0] [5, 7] = some [5, 7] :=
  global_update_returns_aggregate [0, 0] [5, 7] rfl

/-- C7: `combine` on an empty sequence of local results fails with
AggregationError rather than returning any parameter vector, both with
weights omitted and with any supplied weight vector. -/
theorem combine_empty_fails :
    combine [] none = .error .aggregationError ∧
    ∀ ws : List ℚ, combine [] (some ws) = .error .aggregationError := by
  refine ⟨rfl, fun ws => ?_⟩
  cases ws with
  | nil => with_unfolding_all decide
  | cons c cs => simp [combine]

/-- C6: calling the Coordinator's `next` with an empty client dataset
sequence fails with ConfigurationError; no new state is produced, so the
prior `GlobalModelState` remains the last valid one. -/
theorem next_empty_datasets_fails (β : Type) (modelInit : ParameterVector)
    (gradFn : ParameterVector → β → ℚ × ParameterVector) (epochs : ℕ) (lr : ℚ)
    (s : GlobalModelState) :
    coordinatorNext modelInit gradFn epochs lr s ([] : List (List β)) =
      .error .configurationError := by
  unfold coordinatorNext
  rfl

/-- C4: `train` (hence `trainLocal`) never mutates the broadcast global
weights: whatever it writes goes to the local model's variables, and the
global slot of the store is unchanged in the result. -/
theorem train_preserves_global_weights (β : Type)
    (gradFn : ParameterVector → β → ℚ × ParameterVector) (epochs : ℕ) (lr : ℚ)
    (ds : List β) (st st' : TrainState)
    (h : train gradFn epochs lr ds st = some st') : st'.globalW = st.globalW := by
  unfold train at h
  split at h
  · exact absurd h (by simp)
  · rename_i l0 hassign
    have h2 := Option.some.inj h
    rw [← h2]

/-- Witness for C4: one SGD step on global weights `[5]` leaves the global
slot at `[5]` while the local slot moved to `[3]`. -/
theorem train_preserves_global_weights_witness :
    ∃ st' : TrainState,
      train (fun _ _ => ((0 : ℚ), [2])) 1 1 [()] ⟨[5], [0]⟩ = some st' ∧
      st'.globalW = [5] :=
  ⟨⟨[5], [3]⟩, by with_unfolding_all decide,
    train_preserves_global_weights Unit (fun _ _ => ((0 : ℚ), [2])) 1 1 [()]
      ⟨[5], [0]⟩ ⟨[5], [3]⟩ (by with_unfolding_all decide)⟩

/-- C2: with weights omitted, `combine` is the per-index unweighted
arithmetic mean of the shape-aligned local results,
`aggregated[i] = (1/N) * sum over clients of localResults[c][i]`; in
particular on the two local results `[1, 1]` and `[3, 3]` it returns
`[2, 2]`. -/
theorem combine_default_unweighted_mean :
    (∀ (n : ℕ) (vs : List ParameterVector), vs ≠ [] → (∀ v ∈ vs, v.length = n) →
      ∃ agg, combine vs none = .ok agg ∧ agg.length = n ∧
        ∀ i, i < n →
          agg.getD i 0 = (vs.map (fun v => v.getD i 0)).sum / (vs.length : ℚ)) ∧
    combine [[1, 1], [3, 3]] none = .ok [2, 2] := by
  constructor
  · intro n vs hne hlen
    refine ⟨(vecSum vs).map (fun x => x / (vs.length : ℚ)), ?_, ?_, ?_⟩
    · show federated_mean vs = _
      unfold federated_mean
      rw [if_neg (by simpa using hne)]
    · rw [List.length_map, vecSum_length_aligned hne hlen]
    · intro i _
      rw [getD_map_div, vecSum_getD]
  · with_unfolding_all decide

/-- Witness for C2 at the concrete pair of local results `[1, 1]` and
`[3, 3]`. -/
theorem combine_default_unweighted_mean_witness :
    (∃ agg, combine [[1, 1], [3, 3]] none = .ok agg ∧ agg.length = 2 ∧
      ∀ i, i < 2 →
        agg.getD i 0 = (([[1, 1], [3, 3]] : List ParameterVector).map
          (fun v => v.getD i 0)).sum /
            ((([[1, 1], [3, 3]] : List ParameterVector).length : ℕ) : ℚ)) ∧
    combine [[1, 1], [3, 3]] none = .ok [2, 2] :=
  ⟨combine_default_unweighted_mean.1 2 [[1, 1], [3, 3]] (by simp) (by decide),
    combine_default_unweighted_mean.2⟩

/-- C3: `trainLocal` iterates epochs as the outer loop and the dataset's
batches, in the order the dataset yields them, as the inner loop — the batch
schedule is `epochs` concatenated copies of the dataset — and for each batch
applies exactly one plain SGD step, `w[i] - lr * g[i]` per parameter index,
returning the final local vector after all epochs. -/
theorem trainLocal_is_minibatch_sgd :
    (∀ (β : Type) (modelInit gw : ParameterVector)
        (gradFn : ParameterVector → β → ℚ × ParameterVector)
        (epochs : ℕ) (lr : ℚ) (ds : List β), modelInit.length = gw.length →
      local_train modelInit gradFn epochs lr gw ds =
        some (trainLoop gradFn epochs lr ds gw)) ∧
    (∀ (β : Type) (gradFn : ParameterVector → β → ℚ × ParameterVector)
        (epochs : ℕ) (lr : ℚ) (ds : List β) (w : ParameterVector),
      trainLoop gradFn epochs lr ds w =
        (List.replicate epochs ds).flatten.foldl
          (fun v b => sgdStep lr v (gradFn v b).2) w) ∧
    (∀ (lr : ℚ) (w g : ParameterVector) (i : ℕ), i < w.length → i < g.length →
      (sgdStep lr w g).getD i 0 = w.getD i 0 - lr * g.getD i 0) := by
  refine ⟨fun β mi gw gradFn epochs lr ds h => local_train_eq gradFn epochs lr ds h,
    fun β gradFn epochs lr ds w => ?_, sgdStep_getD⟩
  induction epochs generalizing w with
  | zero => rfl
  | succ e ih =>
    have h1 : trainLoop gradFn (e + 1) lr ds w =
        trainLoop gradFn e lr ds (epochPass gradFn lr ds w) := rfl
    rw [h1, ih]
    have h2 : (List.replicate (e + 1) ds).flatten = ds ++ (List.replicate e ds).flatten := by
      simp [List.replicate_succ]
    rw [h2, List.foldl_append]
    rfl

/-- Witness for C3: a single client, one batch, gradient `[2]`, learning rate
`1/10`, one epoch. -/
theorem trainLocal_is_minibatch_sgd_witness :
    local_train [0] (fun _ _ => ((0 : ℚ), [2])) 1 (1/10) [(0 : ℚ)] [()] =
      some (trainLoop (fun _ _ => ((0 : ℚ), [2])) 1 (1/10) [()] [(0 : ℚ)]) ∧
    trainLoop (fun _ _ => ((0 : ℚ), [2])) 1 (1/10) [()] [(0 : ℚ)] =
      (List.replicate 1 [()]).flatten.foldl
        (fun v b => sgdStep (1/10) v (((fun _ _ => ((0 : ℚ), [2])) v b).2)) [(0 : ℚ)] ∧
    (sgdStep (1/10) [(0 : ℚ)] [2]).getD 0 0 =
      ([(0 : ℚ)].getD 0 0) - (1/10) * ([(2 : ℚ)].getD 0 0) :=
  ⟨trainLocal_is_minibatch_sgd.1 Unit [0] [(0 : ℚ)] (fun _ _ => ((0 : ℚ), [2]))
      1 (1/10) [()] rfl,
    trainLocal_is_minibatch_sgd.2.1 Unit (fun _ _ => ((0 : ℚ), [2])) 1 (1/10) [()] [(0 : ℚ)],
    trainLocal_is_minibatch_sgd.2.2 (1/10) [(0 : ℚ)] [2] 0 (by decide) (by decide)⟩

/-- C5: `trainLocal` with `epochs = 0` returns a value equal to the broadcast
global weights (identity law); consequently a round in which every client
trains with `epochs = 0` yields aggregated global weights equal to the
broadcast weights, for any number of rounds. -/
theorem trainLocal_zero_epochs_identity :
    (∀ (β : Type) (modelInit gw : ParameterVector)
        (gradFn : ParameterVector → β → ℚ × ParameterVector) (lr : ℚ)
        (ds : List β), modelInit.length = gw.length →
      local_train modelInit gradFn 0 lr gw ds = some gw) ∧
    (∀ (β : Type) (modelInit : ParameterVector)
        (gradFn : ParameterVector → β → ℚ × ParameterVector) (lr : ℚ)
        (s : GlobalModelState) (dss : List (List β)),
      modelInit.length = s.weights.length → dss ≠ [] → ∀ n : ℕ,
      runRounds modelInit gradFn 0 lr n s dss = .ok ⟨s.round + n, s.weights⟩) := by
  constructor
  · intro β mi gw gradFn lr ds h
    rw [local_train_eq gradFn 0 lr ds h]
    rfl
  · intro β mi gradFn lr s dss h hne n
    induction n generalizing s with
    | zero => rfl
    | succ k ih =>
      have h1 : runRounds mi gradFn 0 lr (k + 1) s dss =
          match coordinatorNext mi gradFn 0 lr s dss with
          | .error e => .error e
          | .ok s1 => runRounds mi gradFn 0 lr k s1 dss := rfl
      rw [h1, coordinatorNext_epochs_zero mi gradFn lr s dss h hne]
      have h2 := ih ⟨s.round + 1, s.weights⟩ h
      simp only [h2]
      congr 1
      simp only [GlobalModelState.mk.injEq, and_true]
      omega

/-- Witness for C5: broadcast weights `[3]`, zero local epochs, two rounds
over a single client leave the weights at `[3]`. -/
theorem trainLocal_zero_epochs_identity_witness :
    local_train [0] (fun _ _ => ((0 : ℚ), [2])) 0 (1/10) [(3 : ℚ)] [()] =
      some [(3 : ℚ)] ∧
    runRounds [0] (fun _ _ => ((0 : ℚ), [2])) 0 (1/10) 2 ⟨0, [(3 : ℚ)]⟩ [[()]] =
      .ok ⟨0 + 2, [(3 : ℚ)]⟩ :=
  ⟨trainLocal_zero_epochs_identity.1 Unit [0] [(3 : ℚ)]
      (fun _ _ => ((0 : ℚ), [2])) (1/10) [()] rfl,
    trainLocal_zero_epochs_identity.2 Unit [0] (fun _ _ => ((0 : ℚ), [2])) (1/10)
      ⟨0, [(3 : ℚ)]⟩ [[()]] rfl (by simp) 2⟩

/-- C1: one successful call of the Coordinator's `next` on a non-empty
sequence of client datasets performs one full round — the broadcast weights
`s.weights` are trained locally on every client dataset, the barrier collects
all local results, and they are aggregated — and the returned state has
`round = s.round + 1` and `weights` equal to the aggregated parameter
vector. -/
theorem next_returns_incremented_round_and_aggregate (β : Type)
    (modelInit : ParameterVector)
    (gradFn : ParameterVector → β → ℚ × ParameterVector) (epochs : ℕ) (lr : ℚ)
    (s s' : GlobalModelState) (dss : List (List β)) (hne : dss ≠ [])
    (h : coordinatorNext modelInit gradFn epochs lr s dss = .ok s') :
    s'.round = s.round + 1 ∧
    ∃ locals : List ParameterVector,
      seqOption (dss.map (fun d => local_train modelInit gradFn epochs lr s.weights d))
        = some locals ∧
      combine locals none = .ok s'.weights := by
  unfold coordinatorNext at h
  rw [if_neg (by simpa using hne)] at h
  split at h
  · exact absurd h (by simp)
  · rename_i w hnext
    have hs' : s' = ⟨s.round + 1, w⟩ := (Except.ok.inj h).symm
    unfold next_fn at hnext
    split at hnext
    · exact absurd hnext (by simp)
    · rename_i locals hseq
      split at hnext
      · exact absurd hnext (by simp)
      · rename_i agg hmean
        split at hnext
        · exact absurd hnext (by simp)
        · rename_i w2 hupd
          have hw2 : w2 = w := Except.ok.inj hnext
          have hwagg : w2 = agg := by
            unfold global_update global_model_update nestAssign at hupd
            split at hupd
            · rename_i hlen
              rw [zipWith_dropFst_eq hlen] at hupd
              exact (Option.some.inj hupd).symm
            · exact absurd hupd (by simp)
          subst hs'
          refine ⟨rfl, locals, hseq, ?_⟩
          show federated_mean locals = _
          rw [hmean]
          rw [← hw2, hwagg]

/-- Witness for C1: one client, one batch with constant gradient `[2]`,
learning rate `1/10`, starting at round 0 with weights `[0]`; the round
returns round 1 with the aggregated weights `[-1/5]`. -/
theorem next_returns_incremented_round_and_aggregate_witness :
    ((⟨1, [-(1 : ℚ)/5]⟩ : GlobalModelState).round =
      (⟨0, [(0 : ℚ)]⟩ : GlobalModelState).round + 1) ∧
    ∃ locals : List ParameterVector,
      seqOption ([[()]].map (fun d =>
        local_train [0] (fun _ _ => ((0 : ℚ), [2])) 1 (1/10) [(0 : ℚ)] d))
        = some locals ∧
      combine locals none = .ok (⟨1, [-(1 : ℚ)/5]⟩ : GlobalModelState).weights :=
  next_returns_incremented_round_and_aggregate Unit [0]
    (fun _ _ => ((0 : ℚ), [2])) 1 (1/10) ⟨0, [(0 : ℚ)]⟩ ⟨1, [-(1 : ℚ)/5]⟩ [[()]]
    (by simp) (by with_unfolding_all decide)

/-- C8: `combine` is invariant under any pairwise permutation of
`(localResults, weights)`: aggregating a permuted sequence of pairs returns
the identical result (exact rational arithmetic stands in for floats). -/
theorem combine_permutation_invariant (vs vs' : List ParameterVector)
    (ws ws' : List ℚ) (h1 : ws.length = vs.length) (h2 : ws'.length = vs'.length)
    (p : (vs.zip ws).Perm (vs'.zip ws')) :
    combine vs (some ws) = combine vs' (some ws') := by
  have hws : ws.Perm ws' := by
    have hm := p.map Prod.snd
    rwa [map_snd_zip_eq vs ws h1.symm, map_snd_zip_eq vs' ws' h2.symm] at hm
  have hsum : ws.sum = ws'.sum := hws.sum_eq
  unfold combine
  dsimp only
  have hA : ¬(ws.length ≠ vs.length) := by simp [h1]
  have hB : ¬(ws'.length ≠ vs'.length) := by simp [h2]
  rw [if_neg hA, if_neg hB, hsum]
  by_cases hle : ws'.sum ≤ 0
  · rw [if_pos hle, if_pos hle]
  · rw [if_neg hle, if_neg hle]
    congr 2
    rw [zipWith_smulVec_eq_map_zip, zipWith_smulVec_eq_map_zip]
    exact vecSum_perm (p.map _)

/-- Witness for C8: swapping the two `(localResult, weight)` pairs
`([1], 2)` and `([2], 3)` leaves the weighted aggregate unchanged. -/
theorem combine_permutation_invariant_witness :
    combine [[1], [2]] (some [2, 3]) = combine [[2], [1]] (some [3, 2]) :=
  combine_permutation_invariant [[1], [2]] [[2], [1]] [2, 3] [3, 2] rfl rfl
    (by with_unfolding_all decide)

/-- C9: during local training, a batch whose gradient computation signals a
numeric failure propagates that failure immediately: for any prefix of
successfully processed batches after which the gradient backend reports
NumericError, the whole local-training invocation returns NumericError, for
every choice of the remaining batches and of the remaining epoch count — so
no subsequent batch or epoch is processed, and no retry or clipping is
applied. -/
theorem trainLocal_propagates_numeric_error (β : Type)
    (gradFnE : ParameterVector → β → Except FLError (ℚ × ParameterVector))
    (lr : ℚ) (bs1 : List β) (b : β) (bs2 : List β) (w v : ParameterVector) (k : ℕ)
    (hpre : batchesE gradFnE lr bs1 w = .ok v)
    (hb : gradFnE v b = .error .numericError) :
    batchesE gradFnE lr (bs1 ++ b :: bs2) w = .error .numericError ∧
    trainLoopE gradFnE lr (k + 1) (bs1 ++ b :: bs2) w = .error .numericError := by
  have hbatch : batchesE gradFnE lr (bs1 ++ b :: bs2) w = .error .numericError := by
    induction bs1 generalizing w with
    | nil =>
      have hv : w = v := Except.ok.inj hpre
      subst hv
      simp only [List.nil_append, batchesE, hb]
    | cons b1 bt ih =>
      cases hg : gradFnE w b1 with
      | error e => simp [batchesE, hg] at hpre
      | ok lg =>
        have hpre1 : batchesE gradFnE lr bt (sgdStep lr w lg.2) = .ok v := by
          simpa [batchesE, hg] using hpre
        simp only [List.cons_append, batchesE, hg]
        exact ih _ hpre1
  exact ⟨hbatch, by simp only [trainLoopE, hbatch]⟩

/-- Witness for C9: after one good batch moves the weights from `[0]` to
`[-1]`, the gradient backend reports NumericError on the next batch, and the
whole invocation (one more trailing batch, one epoch) returns
NumericError. -/
theorem trainLocal_propagates_numeric_error_witness :
    batchesE (fun u _ => if u = [0] then .ok ((0 : ℚ), [1]) else .error .numericError)
      1 ([()] ++ () :: [()]) [0] = .error .numericError ∧
    trainLoopE (fun u _ => if u = [0] then .ok ((0 : ℚ), [1]) else .error .numericError)
      1 (0 + 1) ([()] ++ () :: [()]) [0] = .error .numericError :=
  trainLocal_propagates_numeric_error Unit
    (fun u _ => if u = [0] then .ok ((0 : ℚ), [1]) else .error .numericError)
    1 [()] () [()] [0] [-1] 0 (by with_unfolding_all decide)
    (by with_unfolding_all decide)

end FedAvg
